import Mathlib

/-!
Shallow embedding of the personal-planning assistant's core
(`app/services/memory.py`, `app/services/storage.py`, `app/services/planner.py`
and the relevant parts of `app/schemas.py`), together with proofs about the
behaviour of `search_memories`, `add_interaction`, the session store and the
weekly-pattern aggregation.

Python strings are modelled as `String` / `List Char`, `datetime` values as
`Nat` timestamps, calendar dates as `Int` day numbers, and `uuid4` freshness as
a counter threaded through the store.  Stateful methods become functions from
state to state; the wall clock is passed in explicitly.
-/

namespace Planner

/-! ### Text primitives (Python `str.lower`, `str.split`, `in`) -/

/-- ASCII lower-casing of a single character, the case folding Python's
`str.lower()` performs on the ASCII texts this service stores. -/
def lowerChar : Char → Char
  | 'A' => 'a' | 'B' => 'b' | 'C' => 'c' | 'D' => 'd' | 'E' => 'e' | 'F' => 'f'
  | 'G' => 'g' | 'H' => 'h' | 'I' => 'i' | 'J' => 'j' | 'K' => 'k' | 'L' => 'l'
  | 'M' => 'm' | 'N' => 'n' | 'O' => 'o' | 'P' => 'p' | 'Q' => 'q' | 'R' => 'r'
  | 'S' => 's' | 'T' => 't' | 'U' => 'u' | 'V' => 'v' | 'W' => 'w' | 'X' => 'x'
  | 'Y' => 'y' | 'Z' => 'z'
  | c => c

/-- `text.lower()` on a character list. -/
def lowerStr (s : List Char) : List Char := s.map lowerChar

/-- Helper for `splitWs`: `acc` holds the characters of the current word in
reverse.  Mirrors Python `str.split()` (split on whitespace runs, no empty
pieces). -/
def splitWsAux : List Char → List Char → List (List Char)
  | [], acc => if acc.isEmpty then [] else [acc.reverse]
  | c :: rest, acc =>
    if c.isWhitespace then
      if acc.isEmpty then splitWsAux rest [] else acc.reverse :: splitWsAux rest []
    else splitWsAux rest (c :: acc)

/-- Python `text.split()`: the whitespace-separated words of `text`. -/
def splitWs (s : List Char) : List (List Char) := splitWsAux s []

/-- The token list of a search query:
`{token.lower() for token in query.split() if token}`.
(`split()` already drops empty pieces; the set is only ever consumed by a
conjunction over its elements, for which a list is an adequate embedding.) -/
def queryTokens (q : String) : List (List Char) := (splitWs q.data).map lowerStr

/-- Python `needle in hay` substring containment. -/
def containsTok (hay needle : List Char) : Bool := decide (needle <:+: hay)

/-! ### Interaction memory index (`app/services/memory.py`) -/

/-- `MemoryRecord`: a single user/assistant exchange. -/
structure MemoryRecord where
  user_input : String
  ai_response : String
  metadata : List (String × String)
  created_at : Nat
deriving DecidableEq

/-- The `MemoryService._sessions` mapping, as an association list in dict
insertion order. -/
abbrev MemoryState := List (String × List MemoryRecord)

/-- Python `metadata.get(key)`. -/
def metaGet : List (String × String) → String → Option String
  | [], _ => none
  | (k, v) :: rest, key => if k = key then some v else metaGet rest key

/-- Python `a or b` for an optional string `a`: `None` and the empty string are
falsy, so they fall through to `b`. -/
def orFalsy (a : Option String) (b : String) : String :=
  match a with
  | some s => if s = "" then b else s
  | none => b

/-- `metadata.get("session_id") or metadata.get("date") or date.today().isoformat()`
(the values stored by the callers are strings, for which `str` is the
identity). -/
def bucket_key (metadata : List (String × String)) (today : String) : String :=
  orFalsy (metaGet metadata "session_id") (orFalsy (metaGet metadata "date") today)

/-- `self._sessions.setdefault(key, []).append(record)`: append the record to
the keyed bucket, creating the bucket (at the end, in dict insertion order)
when absent. -/
def bucketAppend : MemoryState → String → MemoryRecord → MemoryState
  | [], k, r => [(k, [r])]
  | (k', rs) :: rest, k, r =>
    if k' = k then (k', rs ++ [r]) :: rest else (k', rs) :: bucketAppend rest k r

/-- `MemoryService.add_interaction`; `today` is `date.today().isoformat()` and
`now` the `datetime.utcnow()` timestamp. -/
def add_interaction (st : MemoryState) (user_input ai_response : String)
    (metadata : List (String × String)) (today : String) (now : Nat) : MemoryState :=
  bucketAppend st (bucket_key metadata today) ⟨user_input, ai_response, metadata, now⟩

/-- `f"{record.user_input} {record.ai_response}".lower()`. -/
def recordHaystack (r : MemoryRecord) : List Char :=
  lowerStr (r.user_input.data ++ ' ' :: r.ai_response.data)

/-- `all(token in haystack for token in tokens)`. -/
def matchesRecord (toks : List (List Char)) (r : MemoryRecord) : Bool :=
  toks.all fun t => containsTok (recordHaystack r) t

/-- The nested bucket/record loop of `search_memories`, flattened into one pass
over the records in scan order; the early `return` upon reaching `limit` is
preserved exactly (the length test runs after the append, as in the source). -/
def searchLoop (toks : List (List Char)) (limit : Nat) :
    List MemoryRecord → List String → List String
  | [], found => found
  | r :: rest, found =>
    if matchesRecord toks r then
      let grown := found ++ [r.ai_response]
      if limit ≤ grown.length then grown else searchLoop toks limit rest grown
    else searchLoop toks limit rest found

/-- All stored records in scan order: buckets in insertion order, records
within a bucket oldest to newest. -/
def allRecords (st : MemoryState) : List MemoryRecord := (st.map Prod.snd).flatten

/-- `MemoryService.search_memories`. -/
def search_memories (st : MemoryState) (query : String) (limit : Nat) : List String :=
  searchLoop (queryTokens query) limit (allRecords st) []

/-- Records of one bucket (`[]` when the bucket does not exist). -/
def bucketRecords (st : MemoryState) (k : String) : List MemoryRecord :=
  match st with
  | [] => []
  | (k', rs) :: rest => if k' = k then rs else bucketRecords rest k

/-! ### Schemas (`app/schemas.py`) -/

/-- `MorningContext`; its `energy_level` field is declared
`int = Field(ge=1, le=5)`, captured by `MorningContext.Valid` below. -/
structure MorningContext where
  energy_level : Int
  top_of_mind : List String
  intended_focus : String
  blockers : List String
deriving DecidableEq

/-- The pydantic boundary validation on `MorningContext.energy_level`
(`Field(ge=1, le=5)`): a `MorningContext` object can only be constructed with
an energy level in `[1, 5]`. -/
def MorningContext.Valid (c : MorningContext) : Prop :=
  1 ≤ c.energy_level ∧ c.energy_level ≤ 5

/-- `EveningReflection`; note that its `energy_pattern` field is declared
`List[tuple[time, int]]` with no range constraint on the levels.  Times of day
are modelled as `Nat`. -/
structure EveningReflection where
  actual_focus : String
  wins : List String
  challenges : List String
  tomorrow_intent : String
  energy_pattern : List (Nat × Int)
deriving DecidableEq

/-- `Decision`; uuids are modelled as `Nat`, timestamps as `Nat`. -/
structure Decision where
  id : Nat
  session_id : Nat
  question : String
  context : String
  options_considered : List String
  chosen_option : Option String
  reasoning : Option String
  outcome : Option String
  timestamp : Nat
deriving DecidableEq

/-- `PlannerEvent`. -/
structure PlannerEvent where
  timestamp : Nat
  session_id : Nat
  description : String
deriving DecidableEq

/-- `DailySession`; calendar dates are modelled as `Int` day numbers. -/
structure DailySession where
  id : Nat
  date : Int
  morning_context : Option MorningContext
  evening_reflection : Option EveningReflection
  decisions : List Decision
  energy_pattern : List (Nat × Int)
deriving DecidableEq

/-- `Task`. -/
structure Task where
  id : Nat
  title : String
  due_date : Option Int
  status : String
  source : String
deriving DecidableEq

/-! ### Session store (`app/services/storage.py`) -/

/-- `InMemoryStore`: `_sessions` is a date-keyed dict (association list in
insertion order), `_events` a list, `_tasks` an id-keyed dict.  `nextId`
supplies the fresh identifiers `uuid4()` would generate. -/
structure InMemoryStore where
  sessions : List (Int × DailySession)
  events : List PlannerEvent
  tasks : List (Nat × Task)
  nextId : Nat
deriving DecidableEq

/-- A store holding no data, as built by `InMemoryStore.__init__`. -/
def emptyStore : InMemoryStore := ⟨[], [], [], 0⟩

/-- `self._sessions.get(session_date)` / `session_date in self._sessions`. -/
def lookupSession : List (Int × DailySession) → Int → Option DailySession
  | [], _ => none
  | (k, s) :: rest, d => if k = d then some s else lookupSession rest d

/-- `self._sessions[session_date] = session`: replace in place when the key is
present, append otherwise (Python dict assignment order semantics). -/
def setSession : List (Int × DailySession) → Int → DailySession → List (Int × DailySession)
  | [], d, s => [(d, s)]
  | (k, v) :: rest, d, s => if k = d then (k, s) :: rest else (k, v) :: setSession rest d s

/-- `DailySession(date=session_date)` with all defaulted fields empty and a
fresh identifier. -/
def emptySession (id : Nat) (d : Int) : DailySession := ⟨id, d, none, none, [], []⟩

/-- `InMemoryStore.get_or_create_session`. -/
def get_or_create_session (st : InMemoryStore) (d : Int) : DailySession × InMemoryStore :=
  match lookupSession st.sessions d with
  | some s => (s, st)
  | none =>
    let s := emptySession st.nextId d
    (s, { st with sessions := st.sessions ++ [(d, s)], nextId := st.nextId + 1 })

/-- `InMemoryStore.update_morning_context`; `now` is the
`datetime.utcnow().time()` sample time. -/
def update_morning_context (st : InMemoryStore) (d : Int) (ctx : MorningContext)
    (now : Nat) : DailySession × InMemoryStore :=
  let p := get_or_create_session st d
  let s := { p.1 with
    morning_context := some ctx,
    energy_pattern := p.1.energy_pattern ++ [(now, ctx.energy_level)] }
  (s, { p.2 with sessions := setSession p.2.sessions d s })

/-- `InMemoryStore.update_evening_reflection`: replaces the reflection and, when
the reflection carries samples, extends the session timeline with them (no
range check of any kind). -/
def update_evening_reflection (st : InMemoryStore) (d : Int)
    (refl : EveningReflection) : DailySession × InMemoryStore :=
  let p := get_or_create_session st d
  let ep := if refl.energy_pattern.isEmpty then p.1.energy_pattern
            else p.1.energy_pattern ++ refl.energy_pattern
  let s := { p.1 with evening_reflection := some refl, energy_pattern := ep }
  (s, { p.2 with sessions := setSession p.2.sessions d s })

/-- `InMemoryStore.add_decision`. -/
def add_decision (st : InMemoryStore) (d : Int) (dec : Decision) :
    DailySession × InMemoryStore :=
  let p := get_or_create_session st d
  let s := { p.1 with decisions := p.1.decisions ++ [dec] }
  (s, { p.2 with sessions := setSession p.2.sessions d s })

/-- `InMemoryStore.get_sessions_between`: inclusive range scan over the session
dict in insertion order. -/
def get_sessions_between (st : InMemoryStore) (start stop : Int) : List DailySession :=
  (st.sessions.filter fun kv => decide (start ≤ kv.1) && decide (kv.1 ≤ stop)).map Prod.snd

/-- `InMemoryStore.list_sessions`: all sessions sorted by date, newest first
(Python `sorted` is a stable merge sort). -/
def list_sessions (st : InMemoryStore) : List DailySession :=
  (st.sessions.map Prod.snd).mergeSort fun a b => decide (b.date ≤ a.date)

/-- `InMemoryStore.add_event`. -/
def add_event (st : InMemoryStore) (e : PlannerEvent) : InMemoryStore :=
  { st with events := st.events ++ [e] }

/-- `InMemoryStore.recent_events`: `self._events[-limit:]` with Python slicing
semantics — `-limit` is `-0 = 0` when `limit = 0`, so the slice is then the
whole list. -/
def recent_events (st : InMemoryStore) (limit : Nat) : List PlannerEvent :=
  if limit = 0 then st.events else st.events.drop (st.events.length - limit)

/-- `InMemoryStore.recent_decisions`: concatenate the decision lists of
`list_sessions()`, stable-sort by timestamp descending, truncate. -/
def recent_decisions (st : InMemoryStore) (limit : Nat) : List Decision :=
  ((((list_sessions st).map DailySession.decisions).flatten).mergeSort
      fun a b => decide (b.timestamp ≤ a.timestamp)).take limit

/-- The energy timeline the store holds for date `d` (`[]` when no session
exists yet). -/
def sessionEnergy (st : InMemoryStore) (d : Int) : List (Nat × Int) :=
  match lookupSession st.sessions d with
  | some s => s.energy_pattern
  | none => []

/-! ### Weekly patterns (`app/services/planner.py`) -/

/-- Python `max` over a list of integers (the caller guards against the empty
list, on which Python would raise; the `[]` value here is never relied on). -/
def maxLevel : List Int → Int
  | [] => 0
  | [x] => x
  | x :: y :: rest => max x (maxLevel (y :: rest))

/-- `session.energy_pattern and max(level for _, level in session.energy_pattern) >= 4`:
the short-circuit `and` evaluates `max` only on a non-empty pattern. -/
def isHighEnergy (s : DailySession) : Bool :=
  !s.energy_pattern.isEmpty &&
    decide (4 ≤ maxLevel (s.energy_pattern.map Prod.snd))

/-- `PlannerService._average_energy`: the mean over every sample of every
session, `None` when there are no samples.  Python's float arithmetic on these
integer sums is exact, so `Rat` is a faithful model. -/
def average_energy (sessions : List DailySession) : Option Rat :=
  let points : List Int := (sessions.map fun s => s.energy_pattern.map Prod.snd).flatten
  if points.isEmpty then none
  else some ((points.map fun z => (z : Rat)).sum / (points.length : Rat))

/-- The content of `WeeklyPatternsResponse` with the string rendering elided:
`high_energy_days` is the date list behind the "High energy on" highlight,
`reflection_count` the number in the reflections highlight, `average_line` is
`some a` exactly when `if average_energy:` passes (Python float truthiness:
non-`None` and non-zero) and the average line reports `a`, and `has_sessions`
selects between the two summary strings. -/
structure WeeklyPatterns where
  high_energy_days : List Int
  reflection_count : Nat
  average_line : Option Rat
  has_sessions : Bool
deriving DecidableEq

/-- `PlannerService.weekly_patterns`, with `today` passed in for
`date.today()`. -/
def weekly_patterns (st : InMemoryStore) (today : Int) : WeeklyPatterns :=
  let start := today - 6
  let sessions := get_sessions_between st start today
  let hed := (sessions.filter isHighEnergy).map DailySession.date
  let rc := (sessions.filter fun s => s.evening_reflection.isSome).length
  let line :=
    match average_energy sessions with
    | none => none
    | some a => if a = 0 then none else some a
  ⟨hed, rc, line, !sessions.isEmpty⟩

/-- Every energy sample of every session in the trailing 7-day window, in scan
order (the "every energy sample across the window" of the weekly report). -/
def windowPoints (st : InMemoryStore) (today : Int) : List Int :=
  ((get_sessions_between st (today - 6) today).map
    fun s => s.energy_pattern.map Prod.snd).flatten

/-- The arithmetic mean of the window's energy samples, as a rational. -/
def windowMean (st : InMemoryStore) (today : Int) : Rat :=
  ((windowPoints st today).map fun z => (z : Rat)).sum
    / ((windowPoints st today).length : Rat)

/-! ### Interleaved timeline updates

`UpdateOp` describes one mutation of a session's energy timeline: a morning
check-in (which appends one `(now, energy_level)` sample) or an evening
reflection (which appends the samples the reflection carries). -/

/-- One timeline-touching update for a date. -/
inductive UpdateOp where
  | morning (ctx : MorningContext) (now : Nat)
  | evening (refl : EveningReflection)
deriving DecidableEq

/-- Apply one update to the store at date `d`. -/
def applyOp (st : InMemoryStore) (d : Int) : UpdateOp → InMemoryStore
  | .morning ctx now => (update_morning_context st d ctx now).2
  | .evening refl => (update_evening_reflection st d refl).2

/-- Apply a sequence of updates in order. -/
def applyOps (st : InMemoryStore) (d : Int) (ops : List UpdateOp) : InMemoryStore :=
  ops.foldl (fun s op => applyOp s d op) st

/-- The samples one update appends to the timeline. -/
def opSamples : UpdateOp → List (Nat × Int)
  | .morning ctx now => [(now, ctx.energy_level)]
  | .evening refl => refl.energy_pattern

/-- Every sample an update carries is in the legal range `[1, 5]`: for a
morning check-in this is the pydantic boundary validation of
`MorningContext.energy_level`; for a reflection it is an assumption on the
caller, since neither the schema nor the store validates those samples. -/
def opInRange : UpdateOp → Prop
  | .morning ctx _ => ctx.Valid
  | .evening refl => ∀ p ∈ refl.energy_pattern, 1 ≤ p.2 ∧ p.2 ≤ 5

/-! ### Concrete instances used by witnesses and counterexamples -/

/-- A stored exchange whose concatenated text contains "focus" and "energy". -/
def wRecord : MemoryRecord := ⟨"Focus today", "More ENERGY tomorrow", [], 0⟩

/-- A memory index holding a single bucket with `wRecord`. -/
def wMemory : MemoryState := [("2024-01-01", [wRecord])]

/-- A memory index with three matching records spread over two buckets. -/
def wMemory3 : MemoryState :=
  [("a", [⟨"x", "r1", [], 0⟩, ⟨"x", "r2", [], 1⟩]), ("b", [⟨"x", "r3", [], 2⟩])]

/-- A store holding three events. -/
def wEvents : InMemoryStore :=
  { emptyStore with events := [⟨0, 0, "a"⟩, ⟨1, 0, "b"⟩, ⟨2, 0, "c"⟩] }

/-- A reflection carrying the out-of-range energy sample `(0, 6)`. -/
def badReflection : EveningReflection := ⟨"f", [], [], "t", [(0, 6)]⟩

/-- A reflection carrying the single sample `(0, 0)`, whose mean is zero. -/
def zeroReflection : EveningReflection := ⟨"f", [], [], "t", [(0, 0)]⟩

/-- A store whose only window session has exactly one energy sample, of level
zero — reachable from the empty store by one evening reflection. -/
def zeroMeanStore : InMemoryStore :=
  (update_evening_reflection emptyStore 0 zeroReflection).2

/-- A store with one morning check-in at energy 5 — reachable from the empty
store. -/
def wWeekStore : InMemoryStore :=
  (update_morning_context emptyStore 0 ⟨5, [], "f", []⟩ 9).2

/-! ### Lemmas about the session dict -/

theorem lookupSession_setSession_self (l : List (Int × DailySession)) (d : Int)
    (s : DailySession) : lookupSession (setSession l d s) d = some s := by
  induction l with
  | nil => simp [setSession, lookupSession]
  | cons kv rest ih =>
    obtain ⟨k, v⟩ := kv
    by_cases h : k = d <;> simp [setSession, lookupSession, h, ih]

theorem lookupSession_append_right {l : List (Int × DailySession)} {d : Int}
    (h : lookupSession l d = none) (s : DailySession) :
    lookupSession (l ++ [(d, s)]) d = some s := by
  induction l with
  | nil => simp [lookupSession]
  | cons kv rest ih =>
    obtain ⟨k, v⟩ := kv
    simp only [lookupSession] at h
    by_cases hk : k = d
    · simp [hk] at h
    · simp only [if_neg hk] at h
      simpa [lookupSession, hk] using ih h

theorem goc_fst_energy (st : InMemoryStore) (d : Int) :
    (get_or_create_session st d).1.energy_pattern = sessionEnergy st d := by
  cases h : lookupSession st.sessions d <;>
    simp [get_or_create_session, sessionEnergy, h, emptySession]

theorem sessionEnergy_set (st' : InMemoryStore) (d : Int) (s : DailySession) :
    sessionEnergy { st' with sessions := setSession st'.sessions d s } d
      = s.energy_pattern := by
  simp only [sessionEnergy, lookupSession_setSession_self]

theorem sessionEnergy_update_morning (st : InMemoryStore) (d : Int)
    (ctx : MorningContext) (now : Nat) :
    sessionEnergy (update_morning_context st d ctx now).2 d
      = sessionEnergy st d ++ [(now, ctx.energy_level)] := by
  show sessionEnergy
      { (get_or_create_session st d).2 with
        sessions := setSession (get_or_create_session st d).2.sessions d
          { (get_or_create_session st d).1 with
            morning_context := some ctx,
            energy_pattern := (get_or_create_session st d).1.energy_pattern
              ++ [(now, ctx.energy_level)] } } d
      = sessionEnergy st d ++ [(now, ctx.energy_level)]
  rw [sessionEnergy_set]
  simp [goc_fst_energy]

theorem sessionEnergy_update_evening (st : InMemoryStore) (d : Int)
    (refl : EveningReflection) :
    sessionEnergy (update_evening_reflection st d refl).2 d
      = sessionEnergy st d ++ refl.energy_pattern := by
  show sessionEnergy
      { (get_or_create_session st d).2 with
        sessions := setSession (get_or_create_session st d).2.sessions d
          { (get_or_create_session st d).1 with
            evening_reflection := some refl,
            energy_pattern :=
              if refl.energy_pattern.isEmpty then
                (get_or_create_session st d).1.energy_pattern
              else (get_or_create_session st d).1.energy_pattern ++ refl.energy_pattern } } d
      = sessionEnergy st d ++ refl.energy_pattern
  rw [sessionEnergy_set]
  by_cases h : refl.energy_pattern.isEmpty
  · have h' : refl.energy_pattern = [] := by simpa using h
    simp [h', goc_fst_energy]
  · simp [h, goc_fst_energy]

theorem sessionEnergy_applyOp (st : InMemoryStore) (d : Int) (op : UpdateOp) :
    sessionEnergy (applyOp st d op) d = sessionEnergy st d ++ opSamples op := by
  cases op with
  | morning ctx now => simpa [applyOp, opSamples] using sessionEnergy_update_morning st d ctx now
  | evening refl => simpa [applyOp, opSamples] using sessionEnergy_update_evening st d refl

theorem sessionEnergy_applyOps (st : InMemoryStore) (d : Int) (ops : List UpdateOp) :
    sessionEnergy (applyOps st d ops) d
      = sessionEnergy st d ++ (ops.map opSamples).flatten := by
  induction ops generalizing st with
  | nil => simp [applyOps]
  | cons op rest ih =>
    simp only [applyOps, List.foldl_cons, List.map_cons, List.flatten_cons]
    rw [show List.foldl (fun s op => applyOp s d op) (applyOp st d op) rest
          = applyOps (applyOp st d op) d rest from rfl]
    rw [ih, sessionEnergy_applyOp, List.append_assoc]

/-! ### C4 -/

/-- C4: for every date and every interleaved sequence of morning-context and
evening-reflection updates starting from a state with no samples for that
date, the session's energy timeline afterwards is exactly the concatenation,
in append order, of the samples each update appended (one per check-in, the
carried list per reflection), and its length is the total number of samples
appended; no sample is ever removed. -/
theorem energy_timeline_accumulates (st : InMemoryStore) (d : Int)
    (ops : List UpdateOp) (h : sessionEnergy st d = []) :
    sessionEnergy (applyOps st d ops) d = (ops.map opSamples).flatten
    ∧ (sessionEnergy (applyOps st d ops) d).length
        = (ops.map fun op => (opSamples op).length).sum := by
  have key := sessionEnergy_applyOps st d ops
  rw [h, List.nil_append] at key
  refine ⟨key, ?_⟩
  rw [key, List.length_flatten, List.map_map]
  rfl

/-- Witness for C4: two updates on the empty store — a check-in at energy 3
and a reflection carrying two samples — leave the timeline
`[(8, 3), (20, 2), (21, 4)]` of length `1 + 2`. -/
theorem energy_timeline_accumulates_witness :
    sessionEnergy emptyStore 0 = []
    ∧ sessionEnergy
        (applyOps emptyStore 0
          [.morning ⟨3, [], "f", []⟩ 8, .evening ⟨"a", [], [], "t", [(20, 2), (21, 4)]⟩]) 0
        = [(8, 3), (20, 2), (21, 4)] := by
  refine ⟨rfl, ?_⟩
  rw [(energy_timeline_accumulates emptyStore 0
    [.morning ⟨3, [], "f", []⟩ 8, .evening ⟨"a", [], [], "t", [(20, 2), (21, 4)]⟩] rfl).1]
  rfl

/-! ### C3 -/

/-- C3, corrected: the core never validates energy samples.  A morning
check-in cannot introduce an out-of-range value because the pydantic schema
(`Field(ge=1, le=5)`) makes `MorningContext.Valid` hold at the boundary; but
samples carried inside an evening reflection are appended unchecked, so the
timeline stays inside `[1, 5]` only when every reflection-carried sample is
itself in range. -/
theorem energy_range_of_valid_updates (st : InMemoryStore) (d : Int)
    (ops : List UpdateOp)
    (h0 : ∀ p ∈ sessionEnergy st d, 1 ≤ p.2 ∧ p.2 ≤ 5)
    (hops : ∀ op ∈ ops, opInRange op) :
    ∀ p ∈ sessionEnergy (applyOps st d ops) d, 1 ≤ p.2 ∧ p.2 ≤ 5 := by
  intro p hp
  rw [sessionEnergy_applyOps] at hp
  rcases List.mem_append.mp hp with h | h
  · exact h0 p h
  · rw [List.mem_flatten] at h
    obtain ⟨l, hl, hpl⟩ := h
    rw [List.mem_map] at hl
    obtain ⟨op, hop, rfl⟩ := hl
    have hin := hops op hop
    cases op with
    | morning ctx now =>
      simp only [opSamples, List.mem_singleton] at hpl
      subst hpl
      exact hin
    | evening refl => exact hin p hpl

/-- Witness for C3 (corrected): a check-in at energy 2 followed by a
reflection carrying the in-range sample `(20, 5)` keeps every timeline entry
in `[1, 5]`. -/
theorem energy_range_of_valid_updates_witness :
    (∀ p ∈ sessionEnergy emptyStore 0, 1 ≤ p.2 ∧ p.2 ≤ 5)
    ∧ ∀ p ∈ sessionEnergy
        (applyOps emptyStore 0
          [.morning ⟨2, [], "f", []⟩ 8, .evening ⟨"a", [], [], "t", [(20, 5)]⟩]) 0,
        1 ≤ p.2 ∧ p.2 ≤ 5 := by
  refine ⟨by simp [sessionEnergy, emptyStore, lookupSession], ?_⟩
  exact energy_range_of_valid_updates emptyStore 0
    [.morning ⟨2, [], "f", []⟩ 8, .evening ⟨"a", [], [], "t", [(20, 5)]⟩]
    (by simp [sessionEnergy, emptyStore, lookupSession])
    (by
      intro op hop
      simp only [List.mem_cons, List.mem_singleton] at hop
      rcases hop with rfl | rfl | h
      · exact ⟨by decide, by decide⟩
      · intro p hp
        simp only [List.mem_singleton] at hp
        subst hp
        exact ⟨by decide, by decide⟩
      · cases h)

/-- Counterexample to C3 as stated: one evening reflection carrying the
sample `(0, 6)` puts the out-of-range level 6 straight into the timeline of
date 0. -/
theorem energy_range_reflection_cx :
    (0, (6 : Int)) ∈ sessionEnergy (update_evening_reflection emptyStore 0 badReflection).2 0
    ∧ ¬ (1 ≤ (6 : Int) ∧ (6 : Int) ≤ 5) := by decide

/-! ### C9 -/

/-- C9: `get_or_create_session` is idempotent — called twice for the same
date it returns the same session identifier (and the same state); the first
call either returns the stored session or creates an empty one, and it is a
total function. -/
theorem get_or_create_session_idempotent (st : InMemoryStore) (d : Int) :
    (get_or_create_session (get_or_create_session st d).2 d).1.id
        = (get_or_create_session st d).1.id
    ∧ (get_or_create_session (get_or_create_session st d).2 d).2
        = (get_or_create_session st d).2
    ∧ (lookupSession st.sessions d = some (get_or_create_session st d).1
       ∨ (lookupSession st.sessions d = none
          ∧ (get_or_create_session st d).1 = emptySession st.nextId d)) := by
  cases h : lookupSession st.sessions d with
  | some s => simp [get_or_create_session, h]
  | none =>
    have h2 : lookupSession (st.sessions ++ [(d, emptySession st.nextId d)]) d
        = some (emptySession st.nextId d) := lookupSession_append_right h _
    simp [get_or_create_session, h, h2]

/-! ### C7 -/

/-- C7, corrected: for every positive `n`, `recent_events n` is the suffix of
the event log holding the last `min n (length)` events, in insertion order
(oldest first).  (`n = 0` is excluded: Python's `events[-0:]` is the whole
list, see the counterexample.) -/
theorem recent_events_last_n (st : InMemoryStore) (n : Nat) (h : 1 ≤ n) :
    recent_events st n <:+ st.events
    ∧ (recent_events st n).length = min n st.events.length := by
  have hn : ¬ n = 0 := by omega
  simp only [recent_events, if_neg hn]
  refine ⟨List.drop_suffix _ _, ?_⟩
  rw [List.length_drop]
  omega

/-- Witness for C7 (corrected): on a three-event log, `recent_events 2` is a
suffix of the log of length `min 2 3 = 2` — concretely the last two events. -/
theorem recent_events_last_n_witness :
    (1 ≤ 2
    ∧ recent_events wEvents 2 <:+ wEvents.events
    ∧ (recent_events wEvents 2).length = min 2 wEvents.events.length)
    ∧ recent_events wEvents 2 = [⟨1, 0, "b"⟩, ⟨2, 0, "c"⟩] := by
  refine ⟨⟨by decide, recent_events_last_n wEvents 2 (by decide)⟩, by decide⟩

/-- Counterexample to C7 as stated: with one stored event, `recent_events 0`
returns the whole log (Python `events[-0:]`), not the empty list of "the last
0 events". -/
theorem recent_events_zero_cx :
    recent_events (add_event emptyStore ⟨0, 0, "e"⟩) 0 = [⟨0, 0, "e"⟩]
    ∧ recent_events (add_event emptyStore ⟨0, 0, "e"⟩) 0 ≠ [] := by decide

/-! ### C6 -/

/-- C6: `recent_decisions n` takes the decisions of every session (whichever
session they came from), sorts them by timestamp descending, and truncates to
at most `n` entries: it equals the `n`-prefix of a timestamp-descending
permutation of all stored decisions, and its length is at most `n`. -/
theorem recent_decisions_sorted_truncated (st : InMemoryStore) (n : Nat) :
    ∃ l : List Decision,
      List.Perm l (((st.sessions.map Prod.snd).map DailySession.decisions).flatten)
      ∧ l.Pairwise (fun a b => b.timestamp ≤ a.timestamp)
      ∧ recent_decisions st n = l.take n
      ∧ (recent_decisions st n).length ≤ n := by
  refine ⟨(((list_sessions st).map DailySession.decisions).flatten).mergeSort
      (fun a b => decide (b.timestamp ≤ a.timestamp)), ?_, ?_, rfl, ?_⟩
  · exact (List.mergeSort_perm _ _).trans
      (((List.mergeSort_perm (st.sessions.map Prod.snd) _).map
        DailySession.decisions).flatten)
  · have hs : ((((list_sessions st).map DailySession.decisions).flatten).mergeSort
        (fun a b => decide (b.timestamp ≤ a.timestamp))).Pairwise
        (fun a b => decide (b.timestamp ≤ a.timestamp) = true) :=
      List.sorted_mergeSort
        (by intro a b c h1 h2; simp only [decide_eq_true_eq] at h1 h2 ⊢; omega)
        (by intro a b; simp only [Bool.or_eq_true, decide_eq_true_eq]; omega)
        _
    exact hs.imp fun h => of_decide_eq_true h
  · simp only [recent_decisions, List.length_take]
    exact Nat.min_le_left _ _

/-! ### C8 -/

theorem maxLevel_ge_iff {l : List Int} (h : l ≠ []) :
    4 ≤ maxLevel l ↔ ∃ x ∈ l, 4 ≤ x := by
  induction l with
  | nil => cases h rfl
  | cons x rest ih =>
    cases rest with
    | nil => simp [maxLevel]
    | cons y t =>
      rw [show maxLevel (x :: y :: t) = max x (maxLevel (y :: t)) from rfl,
        le_max_iff, ih (by simp)]
      simp [List.mem_cons, or_assoc, exists_eq_or_imp]

theorem isHighEnergy_eq_any (s : DailySession) :
    isHighEnergy s = s.energy_pattern.any fun p => decide (4 ≤ p.2) := by
  cases hep : s.energy_pattern with
  | nil => simp [isHighEnergy, hep]
  | cons p rest =>
    rw [Bool.eq_iff_iff]
    have hne : (p.2 :: rest.map Prod.snd) ≠ [] := by simp
    simp only [isHighEnergy, hep, List.isEmpty_cons, Bool.not_false, Bool.true_and,
      List.map_cons, decide_eq_true_eq, maxLevel_ge_iff hne, List.any_eq_true,
      List.mem_cons, List.mem_map]
    aesop

theorem filter_map_snd_date (l : List (Int × DailySession)) (a b : Int)
    (hkey : ∀ kv ∈ l, (kv.2).date = kv.1) :
    (l.filter fun kv => decide (a ≤ kv.1) && decide (kv.1 ≤ b)).map Prod.snd
      = (l.map Prod.snd).filter fun s => decide (a ≤ s.date) && decide (s.date ≤ b) := by
  induction l with
  | nil => rfl
  | cons kv rest ih =>
    obtain ⟨k, v⟩ := kv
    have hv : v.date = k := hkey (k, v) (by simp)
    have hrest : ∀ x ∈ rest, (x.2).date = x.1 :=
      fun x hx => hkey x (List.mem_cons_of_mem _ hx)
    simp only [List.filter_cons, List.map_cons, hv]
    split <;> simp [ih hrest]

/-- C8, corrected: `weekly_patterns` considers exactly the sessions whose date
lies in `[today - 6, today]`; a day is high-energy exactly when some recorded
sample of its session is `≥ 4`; the reflections-captured count is the number
of window sessions with an evening reflection present; and the reported
average is the arithmetic mean of every window sample — but it is absent
whenever there are no samples OR the mean equals zero (Python float
truthiness in `if average_energy:`), not exactly when no samples exist. -/
theorem weekly_patterns_spec (st : InMemoryStore) (today : Int)
    (hkey : ∀ kv ∈ st.sessions, (kv.2).date = kv.1) :
    (get_sessions_between st (today - 6) today
        = (st.sessions.map Prod.snd).filter
            fun s => decide (today - 6 ≤ s.date) && decide (s.date ≤ today))
    ∧ (weekly_patterns st today).high_energy_days
        = ((get_sessions_between st (today - 6) today).filter
            fun s => s.energy_pattern.any fun p => decide (4 ≤ p.2)).map DailySession.date
    ∧ (weekly_patterns st today).reflection_count
        = ((get_sessions_between st (today - 6) today).filter
            fun s => s.evening_reflection.isSome).length
    ∧ (∀ a, (weekly_patterns st today).average_line = some a → a = windowMean st today)
    ∧ ((weekly_patterns st today).average_line = none
        ↔ windowPoints st today = [] ∨ windowMean st today = 0) := by
  refine ⟨filter_map_snd_date st.sessions _ _ hkey, ?_, rfl, ?_, ?_⟩
  · show ((get_sessions_between st (today - 6) today).filter isHighEnergy).map
        DailySession.date = _
    congr 1
    exact List.filter_congr fun s _ => isHighEnergy_eq_any s
  all_goals
    have hline : (weekly_patterns st today).average_line
        = match average_energy (get_sessions_between st (today - 6) today) with
          | none => none
          | some a => if a = 0 then none else some a := rfl
    by_cases hpts : windowPoints st today = []
  · intro a ha
    rw [hline] at ha
    rw [show average_energy (get_sessions_between st (today - 6) today) = none by
      simp [average_energy, windowPoints] at hpts ⊢
      exact hpts] at ha
    cases ha
  · intro a ha
    rw [hline] at ha
    rw [show average_energy (get_sessions_between st (today - 6) today)
        = some (windowMean st today) by
      simp only [average_energy, windowPoints, windowMean] at hpts ⊢
      rw [if_neg (by simpa using hpts)]] at ha
    have ha' : (if windowMean st today = 0 then none
        else some (windowMean st today)) = some a := ha
    by_cases hz : windowMean st today = 0
    · rw [if_pos hz] at ha'; cases ha'
    · rw [if_neg hz] at ha'; exact (Option.some_inj.mp ha').symm
  · rw [hline]
    rw [show average_energy (get_sessions_between st (today - 6) today) = none by
      simp [average_energy, windowPoints] at hpts ⊢
      exact hpts]
    simp [hpts]
  · rw [hline]
    rw [show average_energy (get_sessions_between st (today - 6) today)
        = some (windowMean st today) by
      simp only [average_energy, windowPoints, windowMean] at hpts ⊢
      rw [if_neg (by simpa using hpts)]]
    by_cases hz : windowMean st today = 0
    · simp [hz, hpts]
    · simp [hz, hpts]

/-- Witness for C8 (corrected): a store with one check-in at energy 5 on day 0
satisfies the date-key hypothesis, and the theorem instantiates; concretely
the report marks day 0 as high-energy. -/
theorem weekly_patterns_spec_witness :
    (∀ kv ∈ wWeekStore.sessions, (kv.2).date = kv.1)
    ∧ (weekly_patterns wWeekStore 0).high_energy_days
        = ((get_sessions_between wWeekStore (0 - 6) 0).filter
            fun s => s.energy_pattern.any fun p => decide (4 ≤ p.2)).map DailySession.date
    ∧ (weekly_patterns wWeekStore 0).high_energy_days = [0] :=
  ⟨by decide, (weekly_patterns_spec wWeekStore 0 (by decide)).2.1, by
    simp [weekly_patterns, wWeekStore, update_morning_context, get_or_create_session,
      emptyStore, lookupSession, setSession, emptySession, get_sessions_between,
      isHighEnergy, maxLevel]⟩

/-- Counterexample to C8 as stated: after one evening reflection carrying a
single sample of level 0, the window has a sample yet the average line is
absent (`0.0` is falsy in Python), refuting "absent exactly when no samples
exist". -/
theorem weekly_patterns_zero_mean_cx :
    (weekly_patterns zeroMeanStore 0).average_line = none
    ∧ windowPoints zeroMeanStore 0 ≠ [] := by
  constructor
  · simp [weekly_patterns, average_energy, zeroMeanStore, zeroReflection,
      update_evening_reflection, get_or_create_session, emptyStore, lookupSession,
      setSession, emptySession, get_sessions_between]
  · decide

/-! ### C2 -/

theorem searchLoop_eq_take (toks : List (List Char)) (limit : Nat) :
    ∀ (recs : List MemoryRecord) (acc : List String), acc.length < limit →
      searchLoop toks limit recs acc
        = (acc ++ (recs.filter (matchesRecord toks)).map MemoryRecord.ai_response).take limit := by
  intro recs
  induction recs with
  | nil =>
    intro acc hacc
    simp [searchLoop, List.take_of_length_le (Nat.le_of_lt hacc)]
  | cons r rest ih =>
    intro acc hacc
    by_cases hm : matchesRecord toks r = true
    · rw [show searchLoop toks limit (r :: rest) acc
          = if limit ≤ (acc ++ [r.ai_response]).length then acc ++ [r.ai_response]
            else searchLoop toks limit rest (acc ++ [r.ai_response]) by
        simp [searchLoop, hm]]
      rw [List.filter_cons_of_pos hm, List.map_cons]
      by_cases hl : limit ≤ (acc ++ [r.ai_response]).length
      · have hlen : (acc ++ [r.ai_response]).length = limit := by
          simp only [List.length_append, List.length_singleton] at hl ⊢
          omega
        rw [if_pos hl,
          show acc ++ r.ai_response
                :: (rest.filter (matchesRecord toks)).map MemoryRecord.ai_response
              = (acc ++ [r.ai_response])
                ++ (rest.filter (matchesRecord toks)).map MemoryRecord.ai_response by
            simp]
        exact (List.take_left' hlen).symm
      · have hlt : (acc ++ [r.ai_response]).length < limit := by omega
        rw [if_neg hl, ih _ hlt]
        congr 1
        simp
    · rw [show searchLoop toks limit (r :: rest) acc
          = searchLoop toks limit rest acc by simp [searchLoop, hm]]
      rw [List.filter_cons_of_neg (by simpa using hm)]
      exact ih acc hacc

/-- C2, corrected: for every query and every positive limit `k`,
`search_memories` returns the first `k` matches in scan order — it equals the
`k`-prefix of the matching records' responses, so it has at most `k` entries
and a matching record positioned after the `k`-th match never appears.
(`k = 0` is excluded: the length check runs only after a match is appended,
see the counterexample.) -/
theorem search_memories_take_of_pos (st : MemoryState) (q : String) (k : Nat)
    (h : 1 ≤ k) :
    search_memories st q k
      = (((allRecords st).filter (matchesRecord (queryTokens q))).map
          MemoryRecord.ai_response).take k
    ∧ (search_memories st q k).length ≤ k := by
  have h0 : ([] : List String).length < k := by simpa using h
  have key := searchLoop_eq_take (queryTokens q) k (allRecords st) [] h0
  rw [List.nil_append] at key
  refine ⟨key, ?_⟩
  rw [show search_memories st q k = searchLoop (queryTokens q) k (allRecords st) []
      from rfl, key, List.length_take]
  exact Nat.min_le_left _ _

/-- Witness for C2 (corrected): on a memory with three matching records spread
over two buckets, `limit = 1` returns exactly the first match in scan order
and no later match. -/
theorem search_memories_take_of_pos_witness :
    (1 ≤ 1
    ∧ search_memories wMemory3 "x" 1
        = (((allRecords wMemory3).filter (matchesRecord (queryTokens "x"))).map
            MemoryRecord.ai_response).take 1
    ∧ (search_memories wMemory3 "x" 1).length ≤ 1)
    ∧ search_memories wMemory3 "x" 1 = ["r1"] := by
  have h := search_memories_take_of_pos wMemory3 "x" 1 (by decide)
  exact ⟨⟨by decide, h.1, h.2⟩, by decide⟩

/-- Counterexample to C2 as stated: with `limit = 0` and one matching record,
`search_memories` returns that record's response (the `len(matches) >= limit`
check only runs after a first match is appended), so more than `limit`
results come back. -/
theorem search_memories_limit_zero_cx :
    search_memories wMemory "" 0 = ["More ENERGY tomorrow"]
    ∧ ¬ (search_memories wMemory "" 0).length ≤ 0 := by decide

/-! ### C10 -/

theorem splitWsAux_all_ws {l : List Char} (h : ∀ c ∈ l, c.isWhitespace) :
    splitWsAux l [] = [] := by
  induction l with
  | nil => rfl
  | cons c rest ih =>
    have hc : c.isWhitespace := h c (by simp)
    simp only [splitWsAux, hc, if_true, List.isEmpty_nil]
    exact ih fun x hx => h x (List.mem_cons_of_mem _ hx)

theorem queryTokens_of_ws {q : String} (h : ∀ c ∈ q.data, c.isWhitespace) :
    queryTokens q = [] := by
  simp [queryTokens, splitWs, splitWsAux_all_ws h]

/-- C10: a query that is empty or all whitespace produces an empty token set,
so every stored record matches, and `search_memories` (with a positive limit)
returns the responses of the first `limit` records in bucket-scan order — not
an empty result. -/
theorem search_memories_whitespace_query (st : MemoryState) (q : String) (k : Nat)
    (hq : ∀ c ∈ q.data, c.isWhitespace) (hk : 1 ≤ k) :
    search_memories st q k = ((allRecords st).map MemoryRecord.ai_response).take k := by
  have h0 : ([] : List String).length < k := by simpa using hk
  have key := searchLoop_eq_take ([] : List (List Char)) k (allRecords st) [] h0
  rw [List.nil_append] at key
  rw [show search_memories st q k = searchLoop (queryTokens q) k (allRecords st) []
      from rfl, queryTokens_of_ws hq, key,
    show List.filter (matchesRecord []) (allRecords st) = allRecords st from
      List.filter_eq_self.mpr fun r _ => rfl]

/-- Witness for C10: the query `" "` with limit 1 on a two-record memory
returns the first record's response. -/
theorem search_memories_whitespace_query_witness :
    ((∀ c ∈ (" " : String).data, c.isWhitespace) ∧ 1 ≤ 1)
    ∧ search_memories wMemory3 " " 1
        = ((allRecords wMemory3).map MemoryRecord.ai_response).take 1
    ∧ search_memories wMemory3 " " 1 = ["r1"] :=
  ⟨⟨by decide, by decide⟩, search_memories_whitespace_query wMemory3 " " 1
    (by decide) (by decide), by decide⟩

/-! ### C1 -/

theorem lowerChar_eq_space {c : Char} (h : lowerChar c = ' ') : c = ' ' := by
  unfold lowerChar at h
  split at h <;> first | exact h | exact absurd h (by decide)

theorem splitWsAux_tokens {l : List Char} :
    ∀ acc, (∀ c ∈ acc, ¬ c.isWhitespace = true) →
      ∀ t ∈ splitWsAux l acc, t ≠ [] ∧ ∀ c ∈ t, ¬ c.isWhitespace = true := by
  induction l with
  | nil =>
    intro acc hacc t ht
    by_cases he : acc.isEmpty = true
    · simp [splitWsAux, he] at ht
    · rw [show splitWsAux [] acc = [acc.reverse] by simp [splitWsAux, he]] at ht
      rw [List.mem_singleton] at ht
      subst ht
      have hne : acc ≠ [] := by
        intro hnil
        rw [hnil] at he
        exact he rfl
      exact ⟨by simpa using hne, fun c hc => hacc c (List.mem_reverse.mp hc)⟩
  | cons c rest ih =>
    intro acc hacc t ht
    by_cases hw : c.isWhitespace = true
    · by_cases he : acc.isEmpty = true
      · rw [show splitWsAux (c :: rest) acc = splitWsAux rest [] by
          simp [splitWsAux, hw, he]] at ht
        exact ih [] (by simp) t ht
      · rw [show splitWsAux (c :: rest) acc = acc.reverse :: splitWsAux rest [] by
          simp [splitWsAux, hw, he]] at ht
        rcases List.mem_cons.mp ht with rfl | ht'
        · have hne : acc ≠ [] := by
            intro hnil
            rw [hnil] at he
            exact he rfl
          exact ⟨by simpa using hne, fun x hx => hacc x (List.mem_reverse.mp hx)⟩
        · exact ih [] (by simp) t ht'
    · rw [show splitWsAux (c :: rest) acc = splitWsAux rest (c :: acc) by
        simp [splitWsAux, hw]] at ht
      refine ih (c :: acc) ?_ t ht
      intro x hx
      rcases List.mem_cons.mp hx with rfl | hx'
      · exact hw
      · exact hacc x hx'

theorem queryTokens_no_space {q : String} {t : List Char} (ht : t ∈ queryTokens q) :
    ' ' ∉ t := by
  simp only [queryTokens, splitWs, List.mem_map] at ht
  obtain ⟨w, hw, rfl⟩ := ht
  have hprops := splitWsAux_tokens [] (by simp) w hw
  intro hsp
  simp only [lowerStr, List.mem_map] at hsp
  obtain ⟨c, hc, hlc⟩ := hsp
  have hce : c = ' ' := lowerChar_eq_space hlc
  subst hce
  exact hprops.2 ' ' hc (by decide)

theorem prefix_of_append_cons {n x y : List Char} {c : Char}
    (h : n <+: x ++ c :: y) (hc : c ∉ n) : n <+: x := by
  induction x generalizing n with
  | nil =>
    cases n with
    | nil => exact List.nil_prefix
    | cons d m =>
      rw [List.nil_append] at h
      obtain ⟨rfl, -⟩ := List.cons_prefix_cons.mp h
      exact absurd (List.mem_cons_self _ _) hc
  | cons a x ih =>
    cases n with
    | nil => exact List.nil_prefix
    | cons d m =>
      rw [List.cons_append] at h
      obtain ⟨rfl, hm⟩ := List.cons_prefix_cons.mp h
      have hcm : c ∉ m := fun hmem => hc (List.mem_cons_of_mem _ hmem)
      exact List.cons_prefix_cons.mpr ⟨rfl, ih hm hcm⟩

theorem infix_of_append_cons {n x y : List Char} {c : Char}
    (h : n <:+: x ++ c :: y) (hc : c ∉ n) : n <:+: x ∨ n <:+: y := by
  induction x with
  | nil =>
    rw [List.nil_append] at h
    rcases List.infix_cons_iff.mp h with hp | hi
    · cases n with
      | nil => exact Or.inl List.nil_infix
      | cons d m =>
        obtain ⟨rfl, -⟩ := List.cons_prefix_cons.mp hp
        exact absurd (List.mem_cons_self _ _) hc
    · exact Or.inr hi
  | cons a x ih =>
    rw [List.cons_append] at h
    rcases List.infix_cons_iff.mp h with hp | hi
    · cases n with
      | nil => exact Or.inl List.nil_infix
      | cons d m =>
        obtain ⟨rfl, hm⟩ := List.cons_prefix_cons.mp hp
        have hcm : c ∉ m := fun hmem => hc (List.mem_cons_of_mem _ hmem)
        exact Or.inl (List.cons_prefix_cons.mpr ⟨rfl, prefix_of_append_cons hm hcm⟩).isInfix
    · rcases ih hi with hx | hy
      · exact Or.inl (List.infix_cons hx)
      · exact Or.inr hy

theorem infix_append_of_either {n x y : List Char} (h : n <:+: x ∨ n <:+: y) :
    n <:+: x ++ y := by
  rcases h with h | h
  · exact h.trans (List.prefix_append x y).isInfix
  · exact h.trans (List.suffix_append x y).isInfix

/-- A record matched by the space-joined haystack contains every
(whitespace-free) token in the plain concatenation of its two texts. -/
theorem matchesRecord_concat {toks : List (List Char)} {r : MemoryRecord}
    (hm : matchesRecord toks r = true) (hsp : ∀ t ∈ toks, ' ' ∉ t) :
    ∀ t ∈ toks, t <:+: lowerStr (r.user_input.data ++ r.ai_response.data) := by
  intro t ht
  have hcontains := List.all_eq_true.mp hm t ht
  have hinf : t <:+: recordHaystack r := of_decide_eq_true hcontains
  rw [show recordHaystack r
      = lowerStr r.user_input.data ++ ' ' :: lowerStr r.ai_response.data by
    simp [recordHaystack, lowerStr, lowerChar]] at hinf
  rw [show lowerStr (r.user_input.data ++ r.ai_response.data)
      = lowerStr r.user_input.data ++ lowerStr r.ai_response.data by
    simp [lowerStr]]
  exact infix_append_of_either (infix_of_append_cons hinf (hsp t ht))

theorem searchLoop_sound {toks : List (List Char)} {limit : Nat} (P : String → Prop) :
    ∀ (recs : List MemoryRecord) (acc : List String), (∀ s ∈ acc, P s) →
      (∀ r ∈ recs, matchesRecord toks r = true → P r.ai_response) →
      ∀ s ∈ searchLoop toks limit recs acc, P s := by
  intro recs
  induction recs with
  | nil =>
    intro acc hacc _ s hs
    exact hacc s hs
  | cons r rest ih =>
    intro acc hacc hrecs s hs
    have hr : matchesRecord toks r = true → P r.ai_response :=
      hrecs r (List.mem_cons_self _ _)
    have hrest : ∀ x ∈ rest, matchesRecord toks x = true → P x.ai_response :=
      fun x hx => hrecs x (List.mem_cons_of_mem _ hx)
    by_cases hm : matchesRecord toks r = true
    · have hacc' : ∀ x ∈ acc ++ [r.ai_response], P x := by
        intro x hx
        rcases List.mem_append.mp hx with hx' | hx'
        · exact hacc x hx'
        · rw [List.mem_singleton] at hx'
          subst hx'
          exact hr hm
      rw [show searchLoop toks limit (r :: rest) acc
          = if limit ≤ (acc ++ [r.ai_response]).length then acc ++ [r.ai_response]
            else searchLoop toks limit rest (acc ++ [r.ai_response]) by
        simp [searchLoop, hm]] at hs
      by_cases hl : limit ≤ (acc ++ [r.ai_response]).length
      · rw [if_pos hl] at hs
        exact hacc' s hs
      · rw [if_neg hl] at hs
        exact ih _ hacc' hrest s hs
    · rw [show searchLoop toks limit (r :: rest) acc
          = searchLoop toks limit rest acc by simp [searchLoop, hm]] at hs
      exact ih acc hacc hrest s hs

/-- C1: every string `search_memories` returns is the response text of some
stored record whose lower-cased concatenated input-and-response text contains,
as a substring, every whitespace-separated lower-cased non-empty token of the
query — a record containing only some of the tokens never contributes a
result. -/
theorem search_memories_requires_all_tokens (st : MemoryState) (q : String)
    (limit : Nat) :
    ∀ resp ∈ search_memories st q limit,
      ∃ r ∈ allRecords st, resp = r.ai_response
        ∧ ∀ t ∈ queryTokens q, t <:+: lowerStr (r.user_input.data ++ r.ai_response.data) := by
  intro resp hresp
  refine searchLoop_sound
    (fun s => ∃ r ∈ allRecords st, s = r.ai_response
      ∧ ∀ t ∈ queryTokens q, t <:+: lowerStr (r.user_input.data ++ r.ai_response.data))
    (allRecords st) [] (by simp) ?_ resp hresp
  intro r hr hm
  exact ⟨r, hr, rfl, matchesRecord_concat hm fun t ht => queryTokens_no_space ht⟩

/-- Witness for C1: the record "Focus today" / "More ENERGY tomorrow" is
returned for the query "focus ENERGY", and its concatenated lower-cased text
indeed contains both tokens. -/
theorem search_memories_requires_all_tokens_witness :
    "More ENERGY tomorrow" ∈ search_memories wMemory "focus ENERGY" 5
    ∧ ∃ r ∈ allRecords wMemory, "More ENERGY tomorrow" = r.ai_response
      ∧ ∀ t ∈ queryTokens "focus ENERGY",
          t <:+: lowerStr (r.user_input.data ++ r.ai_response.data) :=
  ⟨by decide, search_memories_requires_all_tokens wMemory "focus ENERGY" 5
    "More ENERGY tomorrow" (by decide)⟩

/-! ### C5 -/

theorem bucketRecords_bucketAppend_self (st : MemoryState) (k : String)
    (r : MemoryRecord) :
    bucketRecords (bucketAppend st k r) k = bucketRecords st k ++ [r] := by
  induction st with
  | nil => simp [bucketAppend, bucketRecords]
  | cons kv rest ih =>
    obtain ⟨k', rs⟩ := kv
    by_cases h : k' = k <;> simp [bucketAppend, bucketRecords, h, ih]

theorem bucketRecords_bucketAppend_other (st : MemoryState) (k k2 : String)
    (r : MemoryRecord) (hne : k2 ≠ k) :
    bucketRecords (bucketAppend st k r) k2 = bucketRecords st k2 := by
  have hkk : ¬ k = k2 := fun h => hne h.symm
  induction st with
  | nil => simp [bucketAppend, bucketRecords, hkk]
  | cons kv rest ih =>
    obtain ⟨k', rs⟩ := kv
    by_cases h1 : k' = k
    · subst h1
      simp [bucketAppend, bucketRecords, hkk]
    · simp [bucketAppend, bucketRecords, h1, ih]

/-- C5, corrected: `add_interaction` picks the bucket key through Python's
`or` chain, which skips *falsy* values — the `session_id` entry is used only
when present and non-empty, else a present non-empty `date` entry, else
today's ISO date (a present-but-empty field is skipped, see the
counterexample); a new record carrying the call's timestamp is appended to
that bucket, the bucket is created when absent, and no other bucket
changes. -/
theorem add_interaction_bucket_spec (st : MemoryState) (ui ar : String)
    (md : List (String × String)) (today : String) (now : Nat) :
    (∀ s, metaGet md "session_id" = some s → s ≠ "" → bucket_key md today = s)
    ∧ ((metaGet md "session_id" = none ∨ metaGet md "session_id" = some "") →
        ∀ dd, metaGet md "date" = some dd → dd ≠ "" → bucket_key md today = dd)
    ∧ ((metaGet md "session_id" = none ∨ metaGet md "session_id" = some "") →
       (metaGet md "date" = none ∨ metaGet md "date" = some "") →
        bucket_key md today = today)
    ∧ bucketRecords (add_interaction st ui ar md today now) (bucket_key md today)
        = bucketRecords st (bucket_key md today) ++ [⟨ui, ar, md, now⟩]
    ∧ ∀ k2, k2 ≠ bucket_key md today →
        bucketRecords (add_interaction st ui ar md today now) k2 = bucketRecords st k2 := by
  refine ⟨?_, ?_, ?_, bucketRecords_bucketAppend_self st _ _,
    fun k2 h => bucketRecords_bucketAppend_other st _ k2 _ h⟩
  · intro s hs hne
    simp [bucket_key, orFalsy, hs, hne]
  · rintro (h1 | h1) dd hd hne <;> simp [bucket_key, orFalsy, h1, hd, hne]
  · rintro (h1 | h1) (h2 | h2) <;> simp [bucket_key, orFalsy, h1, h2]

/-- Witness for C5 (corrected): a non-empty `session_id` wins, and the record
is appended to that (freshly created) bucket. -/
theorem add_interaction_bucket_spec_witness :
    (metaGet [("session_id", "s1")] "session_id" = some "s1" ∧ ("s1" : String) ≠ "")
    ∧ bucket_key [("session_id", "s1")] "2000-01-01" = "s1"
    ∧ bucketRecords (add_interaction [] "u" "a" [("session_id", "s1")] "2000-01-01" 7) "s1"
        = bucketRecords ([] : MemoryState) "s1" ++ [⟨"u", "a", [("session_id", "s1")], 7⟩] := by
  have h := add_interaction_bucket_spec [] "u" "a" [("session_id", "s1")] "2000-01-01" 7
  exact ⟨⟨by decide, by decide⟩, h.1 "s1" (by decide) (by decide), h.2.2.2.1⟩

/-- Counterexample to C5 as stated: metadata *contains* a `session_id` field
(with value `""`), yet the record is filed under the `date` key — Python's
`or` checks truthiness, not presence. -/
theorem add_interaction_empty_session_id_cx :
    metaGet [("session_id", ""), ("date", "2099-01-02")] "session_id" = some ""
    ∧ bucket_key [("session_id", ""), ("date", "2099-01-02")] "2000-01-01" = "2099-01-02"
    ∧ bucketRecords
        (add_interaction [] "u" "a"
          [("session_id", ""), ("date", "2099-01-02")] "2000-01-01" 7) ""
        = []
    ∧ bucketRecords
        (add_interaction [] "u" "a"
          [("session_id", ""), ("date", "2099-01-02")] "2000-01-01" 7) "2099-01-02"
        = [⟨"u", "a", [("session_id", ""), ("date", "2099-01-02")], 7⟩] := by decide

end Planner
